import Mathlib

/-!
Shallow embedding of the number-guessing game in `src/guessing.py`.

The program has two verifiable components: the leaderboard store
(`load_high_scores` and `save_high_score`, a JSON flat file that is read,
sorted by the `attempts` field and rewritten on every save) and the session
engine (`play_game`, a bounded guess loop with input validation in
`get_user_guess` and a hint generator `generate_hint`).

Modelling decisions:
* JSON values parsed by `json.load` are modelled by `JValue` (integers,
  strings, arrays, objects; an object is an association list in insertion
  order, which is what a Python dict preserves and what `json.dump`
  writes).  JSON numbers are modelled as integers — the program only ever
  writes integer `attempts` — and `null`/booleans/floats are not needed by
  any theorem below.
* The backing file `high_scores.json` is a `FileState`: absent, present
  with content `json.load` rejects (`json.JSONDecodeError`), or present
  with content parsing to a `JValue`.
* Python exceptions that `guessing.py` does not catch (`TypeError`,
  `KeyError`) are modelled with `Except PyErr`; an uncaught exception is an
  `.error` result.  `IOError` on write is caught by the source, so it never
  appears as an `.error`; whether the write succeeds is the `writeOk`
  argument of `save_high_score`.
* CPython `sorted`/`list.sort` with a key function decorates every element
  with its key in list order, then runs a stable sort comparing keys.
  `List.insertionSort` is also stable, so it is a faithful model of the
  comparisons.  Key lists that are all integers or all strings are
  comparable; a list of two or more elements whose keys mix types (or are
  not numbers or strings) raises `TypeError`; a list of at most one
  element is returned without any comparison.
* Interactive input is a list of `InputLine`s; `random.randint` and
  `random.shuffle` are modelled from their library contracts (an entropy
  parameter, and the pre-shuffle candidate list respectively).
-/

namespace Guessing

/-- A JSON value as returned by `json.load`.  Objects are association
lists in insertion order. -/
inductive JValue where
  | jInt : Int → JValue
  | jStr : String → JValue
  | jArr : List JValue → JValue
  | jObj : List (String × JValue) → JValue

/-- Python exceptions that `guessing.py` leaves uncaught on the
leaderboard path. -/
inductive PyErr where
  | typeError
  | keyError
deriving DecidableEq

/-- Models Python iteration over a value returned by `json.load`, as
`sorted(scores, ...)` performs it: a list yields its elements, a string
its one-character substrings, a dict its keys; a number is not iterable
and raises `TypeError`. -/
def pyIter : JValue → Except PyErr (List JValue)
  | .jArr xs => .ok xs
  | .jStr s => .ok (s.toList.map fun c => .jStr c.toString)
  | .jObj fields => .ok (fields.map fun kv => .jStr kv.1)
  | .jInt _ => .error .typeError

/-- Models the subscript in the sort key `lambda x: x[\x22attempts\x22]`
of `load_high_scores` and `save_high_score`: a dict lookup raising
`KeyError` when the key is missing, and `TypeError` when the element is
not subscriptable by a string (a number, a string or a list). -/
def attemptsKey : JValue → Except PyErr JValue
  | .jObj fields =>
      match fields.lookup "attempts" with
      | some v => .ok v
      | none => .error .keyError
  | _ => .error .typeError

/-- The `attempts` field of a record, when it is an integer. -/
def attemptsInt (x : JValue) : Option Int :=
  match attemptsKey x with
  | .ok (.jInt n) => some n
  | _ => none

/-- Decorate each element with its sort key, in list order, as CPython
does before comparing; the first failing key application raises. -/
def decorate : List JValue → Except PyErr (List (JValue × JValue))
  | [] => .ok []
  | x :: xs =>
      match attemptsKey x with
      | .error e => .error e
      | .ok k =>
          match decorate xs with
          | .error e => .error e
          | .ok rest => .ok ((x, k) :: rest)

def isJInt : JValue → Bool
  | .jInt _ => true
  | _ => false

def isJStr : JValue → Bool
  | .jStr _ => true
  | _ => false

def intKeyOf : JValue × JValue → Int
  | (_, .jInt n) => n
  | _ => 0

def strKeyOf : JValue × JValue → String
  | (_, .jStr s) => s
  | _ => ""

/-- Comparison of decorated elements by integer key. -/
def intKeyLe (p q : JValue × JValue) : Prop :=
  intKeyOf p ≤ intKeyOf q

instance : DecidableRel intKeyLe :=
  fun p q => inferInstanceAs (Decidable (intKeyOf p ≤ intKeyOf q))

instance : IsTotal (JValue × JValue) intKeyLe :=
  ⟨fun p q => le_total (intKeyOf p) (intKeyOf q)⟩

instance : IsTrans (JValue × JValue) intKeyLe :=
  ⟨fun _ _ _ h h2 => le_trans h h2⟩

/-- Comparison of decorated elements by string key (the order Mathlib
puts on `String`, standing in for the CPython string order). -/
def strKeyLe (p q : JValue × JValue) : Prop :=
  strKeyOf p ≤ strKeyOf q

instance : DecidableRel strKeyLe :=
  fun p q => inferInstanceAs (Decidable (strKeyOf p ≤ strKeyOf q))

/-- Models `sorted(xs, key=lambda x: x[\x22attempts\x22])` and the in-place
`xs.sort(key=...)`: decorate with keys, then a stable sort (CPython sorts
stably; `List.insertionSort` is a stable sort, so the results agree).
All-integer and all-string key lists sort; at most one element means no
comparison is made; otherwise the first cross-type comparison raises
`TypeError`. -/
def pySortByAttempts (xs : List JValue) : Except PyErr (List JValue) :=
  match decorate xs with
  | .error e => .error e
  | .ok keyed =>
      if keyed.length ≤ 1 then
        .ok (keyed.map Prod.fst)
      else if keyed.all fun p => isJInt p.2 then
        .ok ((keyed.insertionSort intKeyLe).map Prod.fst)
      else if keyed.all fun p => isJStr p.2 then
        .ok ((keyed.insertionSort strKeyLe).map Prod.fst)
      else
        .error .typeError

/-- The backing file `high_scores.json` as the program observes it. -/
inductive FileState where
  | absent
  | invalidJson
  | json : JValue → FileState

/-- Embeds `load_high_scores` (src/guessing.py lines 87-98).  The Bool
records whether the could-not-read warning was printed.  An absent file
yields the empty list; a file `json.load` rejects yields the empty list
plus the warning (`json.JSONDecodeError` is caught); any `TypeError` or
`KeyError` raised by `sorted(scores, key=lambda x: x[\x22attempts\x22])`
propagates to the caller uncaught. -/
def load_high_scores : FileState → Except PyErr (List JValue × Bool)
  | .absent => .ok ([], false)
  | .invalidJson => .ok ([], true)
  | .json v =>
      match pyIter v with
      | .error e => .error e
      | .ok xs =>
          match pySortByAttempts xs with
          | .error e => .error e
          | .ok l => .ok (l, false)

/-- Embeds `save_high_score` (src/guessing.py lines 100-110): load, append
the new score, sort in place, rewrite the whole file.  `writeOk` models
whether opening and writing `high_scores.json` succeeds; an `IOError`
there is caught and reported, which the result records as `true` in its
last component, and then the file keeps its previous state.  The middle
component is the in-memory sorted `scores` list the function holds.
Errors raised by the inner `load_high_scores` or by `scores.sort`
propagate uncaught. -/
def save_high_score (score : JValue) (fs : FileState) (writeOk : Bool) :
    Except PyErr (FileState × List JValue × Bool) :=
  match load_high_scores fs with
  | .error e => .error e
  | .ok (scores, _) =>
      match pySortByAttempts (scores ++ [score]) with
      | .error e => .error e
      | .ok sorted =>
          if writeOk then
            .ok (.json (.jArr sorted), sorted, false)
          else
            .ok (fs, sorted, true)

/-- The score dict built by `play_game` for a won session (src/guessing.py
lines 177-182), with its four keys in insertion order. -/
structure ScoreRecord where
  name : String
  difficulty : String
  attempts : Int
  date : String
deriving DecidableEq

def ScoreRecord.toJson (r : ScoreRecord) : JValue :=
  .jObj [("name", .jStr r.name), ("difficulty", .jStr r.difficulty),
         ("attempts", .jInt r.attempts), ("date", .jStr r.date)]

/-- A sequence of `save_high_score` calls, each with its own write
outcome, threading the file state; an uncaught exception aborts the
sequence. -/
def run_saves (fs : FileState) : List (ScoreRecord × Bool) → Except PyErr FileState
  | [] => .ok fs
  | (r, w) :: rest =>
      match save_high_score r.toJson fs w with
      | .error e => .error e
      | .ok (fs2, _, _) => run_saves fs2 rest

/-- Every loaded record carries an integer `attempts` field. -/
def intKeyed (l : List JValue) : Bool :=
  l.all fun x => (attemptsInt x).isSome

/-- File states from which `load_high_scores` returns normally and every
loaded record carries an integer `attempts` field. -/
def intLoadable (fs : FileState) : Bool :=
  match load_high_scores fs with
  | .ok (l, _) => intKeyed l
  | .error _ => false

/-- Non-decreasing in the integer `attempts` field. -/
def attemptsSorted (l : List JValue) : Prop :=
  l.Pairwise fun x y => ∃ m n, attemptsInt x = some m ∧ attemptsInt y = some n ∧ m ≤ n

/-! ### Session engine -/

/-- The difficulty table (src/guessing.py lines 6-10). -/
structure DifficultySettings where
  tries : Nat
  range : Nat
deriving DecidableEq

def DIFFICULTIES : List (String × DifficultySettings) :=
  [("easy", ⟨10, 100⟩), ("medium", ⟨7, 100⟩), ("hard", ⟨5, 100⟩)]

/-- Models `random.randint a b` from its library contract (a uniform
integer in the closed interval), driven by an arbitrary entropy value. -/
def randint (a b : Int) (entropy : Nat) : Int :=
  a + (entropy % (b - a + 1).toNat : Nat)

/-- Embeds `generate_secret_number` (src/guessing.py lines 40-43); `none`
models the `KeyError` on an unknown difficulty name. -/
def generate_secret_number (difficulty_level : String) (entropy : Nat) : Option Int :=
  match DIFFICULTIES.lookup difficulty_level with
  | some s => some (randint 1 (s.range : Int) entropy)
  | none => none

/-- One line typed at the guess prompt: text that `int(...)` rejects with
`ValueError`, or an integer value. -/
inductive InputLine where
  | notInt
  | intVal : Int → InputLine
deriving DecidableEq

/-- A line the validation loop rejects: non-integer text or an integer
outside `[1, max_range]`. -/
def line_rejected (max_range : Int) : InputLine → Bool
  | .notInt => true
  | .intVal n => decide (n < 1) || decide (max_range < n)

/-- Embeds `get_user_guess` (src/guessing.py lines 45-55): read lines
until one parses as an integer in `[1, max_range]`, then return it with
the unconsumed rest of the input.  `none` models the loop still waiting
at the prompt when the given input runs out. -/
def get_user_guess (max_range : Int) : List InputLine → Option (Int × List InputLine)
  | [] => none
  | .notInt :: rest => get_user_guess max_range rest
  | .intVal n :: rest =>
      if 1 ≤ n ∧ n ≤ max_range then some (n, rest)
      else get_user_guess max_range rest

/-- The guard on src/guessing.py line 169 deciding whether a hint is
printed after a wrong guess. -/
def hint_condition (attempts_made : Nat) (game_won : Bool) : Bool :=
  decide (attempts_made ≥ 3) && !game_won &&
    (decide (attempts_made = 3) ||
      (decide (attempts_made > 3) && decide (attempts_made % 2 = 1)))

/-- Observable outcome of the guess loop of `play_game`. -/
structure SessionResult where
  game_won : Bool
  attempts_made : Nat
  iterations : Nat
  hintsAt : List Nat
deriving DecidableEq

/-- Embeds the guess loop of `play_game` (src/guessing.py lines 152-173):
`guesses n` is the validated guess `get_user_guess` returns on the
iteration that raises `attempts_made` from `n` to `n + 1`.  `iterations`
counts loop iterations and `hintsAt` records the values of
`attempts_made` at which a hint line is printed.  A correct guess sets
`game_won` and breaks before the hint check; the loop condition is
`attempts_made < max_attempts`. -/
def play_game_loop (secret : Int) (max_attempts : Nat) (guesses : Nat → Int)
    (attempts_made : Nat) : SessionResult :=
  if _h : attempts_made < max_attempts then
    let guess := guesses attempts_made
    let a := attempts_made + 1
    if guess = secret then
      ⟨true, a, 1, []⟩
    else
      let r := play_game_loop secret max_attempts guesses a
      ⟨r.game_won, r.attempts_made, r.iterations + 1,
        (if hint_condition a false then [a] else []) ++ r.hintsAt⟩
  else
    ⟨false, attempts_made, 0, []⟩
termination_by max_attempts - attempts_made
decreasing_by omega

/-- The hint strings `generate_hint` can put into its candidate list,
identified by content (the proximity hints carry the interpolated
`last_guess`). -/
inductive HintToken where
  | parityEven
  | parityOdd
  | div3
  | div5
  | div7
  | greaterThan : Int → HintToken
  | lessThan : Int → HintToken
deriving DecidableEq

/-- Embeds the candidate list `hints` built by `generate_hint`
(src/guessing.py lines 57-82) before `random.shuffle` and the truncation
to two entries: one parity hint always; for secrets above 10 the first
divisor among 3, 5, 7 that divides the secret; and, when a last guess is
given, one direction hint (nothing when it equals the secret). -/
def generate_hint_candidates (secret_number : Int) (last_guess : Option Int) :
    List HintToken :=
  (if secret_number % 2 = 0 then [HintToken.parityEven] else [HintToken.parityOdd])
  ++ (if secret_number > 10 then
        if secret_number % 3 = 0 then [HintToken.div3]
        else if secret_number % 5 = 0 then [HintToken.div5]
        else if secret_number % 7 = 0 then [HintToken.div7]
        else []
      else [])
  ++ (match last_guess with
      | none => []
      | some g =>
          if g < secret_number then [HintToken.greaterThan g]
          else if g > secret_number then [HintToken.lessThan g]
          else [])

/-! ### Helper lemmas: the leaderboard store -/

theorem attemptsInt_toJson (r : ScoreRecord) : attemptsInt r.toJson = some r.attempts :=
  rfl

theorem attemptsInt_eq_some {x : JValue} {n : Int} :
    attemptsInt x = some n ↔ attemptsKey x = .ok (.jInt n) := by
  cases hk : attemptsKey x with
  | error e => simp [attemptsInt, hk]
  | ok v => cases v <;> simp [attemptsInt, hk]

theorem decorate_ok_spec : ∀ {xs keyed}, decorate xs = .ok keyed →
    keyed.map Prod.fst = xs ∧ ∀ p ∈ keyed, attemptsKey p.1 = .ok p.2 := by
  intro xs
  induction xs with
  | nil =>
      intro keyed h
      simp only [decorate] at h
      cases h
      simp
  | cons x xs ih =>
      intro keyed h
      simp only [decorate] at h
      cases hk : attemptsKey x with
      | error e => rw [hk] at h; cases h
      | ok k =>
          rw [hk] at h
          cases hd : decorate xs with
          | error e => rw [hd] at h; cases h
          | ok rest =>
              rw [hd] at h
              cases h
              obtain ⟨hmap, hall⟩ := ih hd
              refine ⟨by simp [hmap], ?_⟩
              intro p hp
              rcases List.mem_cons.mp hp with h1 | h2
              · subst h1; exact hk
              · exact hall p h2

theorem decorate_of_intKeyed : ∀ {xs}, intKeyed xs = true →
    ∃ keyed, decorate xs = .ok keyed ∧ keyed.map Prod.fst = xs ∧
      ∀ p ∈ keyed, isJInt p.2 = true := by
  intro xs
  induction xs with
  | nil => intro _; exact ⟨[], rfl, rfl, by simp⟩
  | cons x xs ih =>
      intro h
      rw [intKeyed, List.all_cons, Bool.and_eq_true] at h
      obtain ⟨hx, hxs⟩ := h
      obtain ⟨n, hn⟩ := Option.isSome_iff_exists.mp hx
      have hk : attemptsKey x = .ok (.jInt n) := attemptsInt_eq_some.mp hn
      obtain ⟨keyed, hd, hmap, hall⟩ := ih hxs
      refine ⟨(x, .jInt n) :: keyed, ?_, by simp [hmap], ?_⟩
      · simp only [decorate, hk, hd]
      · intro p hp
        rcases List.mem_cons.mp hp with h1 | h2
        · subst h1; rfl
        · exact hall p h2

theorem key_int_char {p : JValue × JValue} (h1 : attemptsKey p.1 = .ok p.2)
    (h2 : isJInt p.2 = true) : attemptsInt p.1 = some (intKeyOf p) := by
  obtain ⟨a, b⟩ := p
  cases b <;> simp [isJInt] at h2
  exact attemptsInt_eq_some.mpr h1

theorem attemptsSorted_of_short {l : List JValue} (h : l.length ≤ 1) :
    attemptsSorted l := by
  match l, h with
  | [], _ => exact List.Pairwise.nil
  | [x], _ => simp [attemptsSorted]

theorem sortedInt_core {keyed : List (JValue × JValue)}
    (hkey : ∀ p ∈ keyed, attemptsKey p.1 = .ok p.2)
    (hint : ∀ p ∈ keyed, isJInt p.2 = true) :
    attemptsSorted ((keyed.insertionSort intKeyLe).map Prod.fst) := by
  have hs : List.Pairwise intKeyLe (keyed.insertionSort intKeyLe) :=
    List.sorted_insertionSort intKeyLe keyed
  rw [attemptsSorted, List.pairwise_map]
  refine hs.imp_of_mem ?_
  intro p q hp hq hle
  have hp' : p ∈ keyed := (List.mem_insertionSort _).mp hp
  have hq' : q ∈ keyed := (List.mem_insertionSort _).mp hq
  exact ⟨intKeyOf p, intKeyOf q, key_int_char (hkey p hp') (hint p hp'),
    key_int_char (hkey q hq') (hint q hq'), hle⟩

theorem pySort_int_ok {xs : List JValue} (h : intKeyed xs = true) :
    ∃ ys, pySortByAttempts xs = .ok ys ∧ intKeyed ys = true ∧
      (∀ y, y ∈ ys ↔ y ∈ xs) ∧ attemptsSorted ys := by
  obtain ⟨keyed, hdec, hmap, hint⟩ := decorate_of_intKeyed h
  have hkey := (decorate_ok_spec hdec).2
  by_cases hlen : keyed.length ≤ 1
  · refine ⟨keyed.map Prod.fst, ?_, ?_, ?_, ?_⟩
    · simp only [pySortByAttempts, hdec, if_pos hlen]
    · rw [hmap]; exact h
    · rw [hmap]; intro y; exact Iff.rfl
    · exact attemptsSorted_of_short (by simpa using hlen)
  · have hall : (keyed.all fun p => isJInt p.2) = true :=
      List.all_eq_true.mpr fun p hp => hint p hp
    refine ⟨(keyed.insertionSort intKeyLe).map Prod.fst, ?_, ?_, ?_, ?_⟩
    · simp only [pySortByAttempts, hdec, if_neg hlen, if_pos hall]
    · rw [intKeyed, List.all_eq_true]
      intro y hy
      obtain ⟨p, hp, hpy⟩ := List.mem_map.mp hy
      have hp' : p ∈ keyed := (List.mem_insertionSort _).mp hp
      rw [← hpy, Option.isSome_iff_exists]
      exact ⟨intKeyOf p, key_int_char (hkey p hp') (hint p hp')⟩
    · intro y
      rw [← hmap]
      constructor
      · intro hy
        obtain ⟨p, hp, hpy⟩ := List.mem_map.mp hy
        exact List.mem_map.mpr ⟨p, (List.mem_insertionSort _).mp hp, hpy⟩
      · intro hy
        obtain ⟨p, hp, hpy⟩ := List.mem_map.mp hy
        exact List.mem_map.mpr ⟨p, (List.mem_insertionSort _).mpr hp, hpy⟩
    · exact sortedInt_core hkey hint

theorem pySort_ok_sorted {xs ys : List JValue}
    (h : pySortByAttempts xs = .ok ys) (hk : intKeyed ys = true) :
    attemptsSorted ys := by
  rw [pySortByAttempts] at h
  cases hdec : decorate xs with
  | error e => rw [hdec] at h; cases h
  | ok keyed =>
      rw [hdec] at h
      simp only [] at h
      have hkey := (decorate_ok_spec hdec).2
      by_cases hlen : keyed.length ≤ 1
      · rw [if_pos hlen] at h
        cases h
        exact attemptsSorted_of_short (by simpa using hlen)
      · rw [if_neg hlen] at h
        by_cases hall : (keyed.all fun p => isJInt p.2) = true
        · rw [if_pos hall] at h
          cases h
          exact sortedInt_core hkey (List.all_eq_true.mp hall)
        · rw [if_neg hall] at h
          by_cases hstr : (keyed.all fun p => isJStr p.2) = true
          · rw [if_pos hstr] at h
            cases h
            exfalso
            have hne : keyed ≠ [] := by
              intro hnil
              rw [hnil] at hlen
              simp at hlen
            obtain ⟨p, hp⟩ := List.exists_mem_of_ne_nil keyed hne
            have hps : p ∈ keyed.insertionSort strKeyLe :=
              (List.mem_insertionSort _).mpr hp
            have hmem : p.1 ∈ (keyed.insertionSort strKeyLe).map Prod.fst :=
              List.mem_map.mpr ⟨p, hps, rfl⟩
            have hsome := List.all_eq_true.mp hk p.1 hmem
            obtain ⟨n, hn⟩ := Option.isSome_iff_exists.mp hsome
            have hkeyp := hkey p hp
            have hstrp := List.all_eq_true.mp hstr p hp
            obtain ⟨a, b⟩ := p
            cases b <;> simp [isJStr] at hstrp
            rw [attemptsInt_eq_some.mp hn] at hkeyp
            cases hkeyp
          · rw [if_neg hstr] at h
            cases h

theorem intLoadable_load {fs : FileState} (h : intLoadable fs = true) :
    ∃ l w, load_high_scores fs = .ok (l, w) ∧ intKeyed l = true := by
  rw [intLoadable] at h
  cases hl : load_high_scores fs with
  | error e => rw [hl] at h; cases h
  | ok p =>
      obtain ⟨l, w⟩ := p
      rw [hl] at h
      exact ⟨l, w, rfl, h⟩

theorem load_of_intLoadable {fs : FileState} (h : intLoadable fs = true) :
    ∃ l w, load_high_scores fs = .ok (l, w) ∧ intKeyed l = true ∧ attemptsSorted l := by
  obtain ⟨l, w, hl, hk⟩ := intLoadable_load h
  refine ⟨l, w, hl, hk, ?_⟩
  cases fs with
  | absent =>
      simp only [load_high_scores, Except.ok.injEq, Prod.mk.injEq] at hl
      obtain ⟨h1, _⟩ := hl
      subst h1
      exact List.Pairwise.nil
  | invalidJson =>
      simp only [load_high_scores, Except.ok.injEq, Prod.mk.injEq] at hl
      obtain ⟨h1, _⟩ := hl
      subst h1
      exact List.Pairwise.nil
  | json v =>
      simp only [load_high_scores] at hl
      cases hi : pyIter v with
      | error e => rw [hi] at hl; cases hl
      | ok xs =>
          rw [hi] at hl
          simp only [] at hl
          cases hs : pySortByAttempts xs with
          | error e => rw [hs] at hl; cases hl
          | ok l' =>
              rw [hs] at hl
              simp only [Except.ok.injEq, Prod.mk.injEq] at hl
              obtain ⟨h1, _⟩ := hl
              subst h1
              exact pySort_ok_sorted hs hk

theorem intLoadable_jArr {ys : List JValue} (h : intKeyed ys = true) :
    intLoadable (.json (.jArr ys)) = true := by
  obtain ⟨zs, hs, hkz, _, _⟩ := pySort_int_ok h
  simp only [intLoadable, load_high_scores, pyIter, hs]
  exact hkz

theorem save_of_intLoadable {fs : FileState} (h : intLoadable fs = true)
    (r : ScoreRecord) (w : Bool) :
    ∃ fs2 mem rep, save_high_score r.toJson fs w = .ok (fs2, mem, rep) ∧
      intLoadable fs2 = true ∧ r.toJson ∈ mem ∧ attemptsSorted mem ∧
      (w = false → fs2 = fs ∧ rep = true) ∧
      (w = true → fs2 = .json (.jArr mem) ∧ rep = false) := by
  obtain ⟨l, w0, hl, hk⟩ := intLoadable_load h
  have hk2 : intKeyed (l ++ [r.toJson]) = true := by
    rw [intKeyed, List.all_append, Bool.and_eq_true]
    exact ⟨hk, by simp [attemptsInt_toJson]⟩
  obtain ⟨ys, hs, hky, hmem, hsort⟩ := pySort_int_ok hk2
  have hsave : save_high_score r.toJson fs w =
      if w then .ok (.json (.jArr ys), ys, false) else .ok (fs, ys, true) := by
    simp only [save_high_score, hl, hs]
  have hr : r.toJson ∈ ys := (hmem _).mpr (by simp)
  cases w with
  | false =>
      refine ⟨fs, ys, true, ?_, h, hr, hsort, fun _ => ⟨rfl, rfl⟩,
        fun hw => by simp at hw⟩
      simpa using hsave
  | true =>
      refine ⟨.json (.jArr ys), ys, false, ?_, intLoadable_jArr hky, hr, hsort,
        fun hw => by simp at hw, fun _ => ⟨rfl, rfl⟩⟩
      simpa using hsave

theorem run_saves_ok : ∀ (ops : List (ScoreRecord × Bool)) (fs : FileState),
    intLoadable fs = true →
    ∃ fs2, run_saves fs ops = .ok fs2 ∧ intLoadable fs2 = true := by
  intro ops
  induction ops with
  | nil => intro fs h; exact ⟨fs, rfl, h⟩
  | cons op rest ih =>
      intro fs h
      obtain ⟨r, w⟩ := op
      obtain ⟨fs2, mem, rep, hsave, h2, _, _, _, _⟩ := save_of_intLoadable h r w
      obtain ⟨fs3, hrun, h3⟩ := ih fs2 h2
      refine ⟨fs3, ?_, h3⟩
      simp only [run_saves, hsave]
      exact hrun

/-! ### Claim theorems: the leaderboard store -/

/-- C1 (amended).  From every initial file state that
`load_high_scores` reads back normally with integer `attempts` fields
(absent, undecodable JSON, or a well-formed array — but not arbitrary
file content), any sequence of `save_high_score` calls of well-formed
records, with any mix of write successes and failures, leaves the store
in a state from which `load_high_scores` returns a sequence that is
non-decreasing in the `attempts` field; in particular saving attempts
5, 3, 8 in that order onto an empty store loads back ordered 3, 5, 8. -/
theorem leaderboard_sorted_invariant :
    (∀ (fs : FileState) (ops : List (ScoreRecord × Bool)), intLoadable fs = true →
      ∃ fs2 l w, run_saves fs ops = .ok fs2 ∧ load_high_scores fs2 = .ok (l, w) ∧
        attemptsSorted l) ∧
    (∃ fs2, run_saves .absent
        [(⟨"a", "easy", 5, "2026-01-01"⟩, true), (⟨"b", "easy", 3, "2026-01-01"⟩, true),
         (⟨"c", "easy", 8, "2026-01-01"⟩, true)] = .ok fs2 ∧
      load_high_scores fs2 =
        .ok ([ScoreRecord.toJson ⟨"b", "easy", 3, "2026-01-01"⟩,
              ScoreRecord.toJson ⟨"a", "easy", 5, "2026-01-01"⟩,
              ScoreRecord.toJson ⟨"c", "easy", 8, "2026-01-01"⟩], false)) := by
  constructor
  · intro fs ops h
    obtain ⟨fs2, hrun, h2⟩ := run_saves_ok ops fs h
    obtain ⟨l, w, hl, _, hsort⟩ := load_of_intLoadable h2
    exact ⟨fs2, l, w, hrun, hl, hsort⟩
  · exact ⟨_, rfl, rfl⟩

theorem leaderboard_sorted_invariant_witness :
    ∃ fs2 l w, run_saves .absent [(⟨"n", "hard", 4, "2026-02-02"⟩, true)] = .ok fs2 ∧
      load_high_scores fs2 = .ok (l, w) ∧ attemptsSorted l :=
  leaderboard_sorted_invariant.1 .absent [(⟨"n", "hard", 4, "2026-02-02"⟩, true)] rfl

/-- C1 counterexample to the claim as stated: from the file state whose
content is the valid JSON value `42` — a file state the claim
quantifies over — the empty sequence of saves leaves the state
unchanged, and `load_high_scores` then raises `TypeError` instead of
returning a sorted sequence; a save from that state raises too. -/
theorem leaderboard_sorted_invariant_counterexample :
    run_saves (.json (.jInt 42)) [] = .ok (.json (.jInt 42)) ∧
    load_high_scores (.json (.jInt 42)) = .error .typeError ∧
    save_high_score (ScoreRecord.toJson ⟨"a", "easy", 1, "2026-01-01"⟩)
      (.json (.jInt 42)) true = .error .typeError :=
  ⟨rfl, rfl, rfl⟩

/-- C2.  Saving any well-formed record with the store empty (backing
file absent or holding the empty JSON array), with the write
succeeding, then loading, yields exactly the one-element sequence
holding the saved record. -/
theorem save_roundtrip_empty (r : ScoreRecord) (fs : FileState)
    (h : fs = .absent ∨ fs = .json (.jArr [])) :
    ∃ fs2, save_high_score r.toJson fs true = .ok (fs2, [r.toJson], false) ∧
      load_high_scores fs2 = .ok ([r.toJson], false) := by
  rcases h with h | h <;> subst h <;> exact ⟨_, rfl, rfl⟩

theorem save_roundtrip_empty_witness :
    ∃ fs2, save_high_score (ScoreRecord.toJson ⟨"Anonymous", "medium", 2, "2026-03-03"⟩)
        .absent true =
        .ok (fs2, [ScoreRecord.toJson ⟨"Anonymous", "medium", 2, "2026-03-03"⟩], false) ∧
      load_high_scores fs2 =
        .ok ([ScoreRecord.toJson ⟨"Anonymous", "medium", 2, "2026-03-03"⟩], false) :=
  save_roundtrip_empty ⟨"Anonymous", "medium", 2, "2026-03-03"⟩ .absent (Or.inl rfl)

/-- C3 counterexample to the claim as stated: two backing-file contents
that are malformed in the claim sense (valid JSON, but not an array of
well-formed score records) on which `load_high_scores` raises — a
`KeyError` for an array holding a record without an `attempts` field,
and a `TypeError` for a JSON string — rather than returning an empty
sequence with a warning. -/
theorem load_malformed_counterexample :
    load_high_scores (.json (.jArr [.jObj []])) = .error .keyError ∧
    load_high_scores (.json (.jStr "x")) = .error .typeError :=
  ⟨rfl, rfl⟩

/-- C3 (amended).  `load_high_scores` returns the empty sequence when the
backing file is absent; it returns the empty sequence and emits the
warning exactly when the file content is not decodable as JSON
(`json.JSONDecodeError` is the only exception caught); it does not
recover from every malformed content: there is decodable file content —
not an array of well-formed score records — on which it raises to its
caller instead of returning. -/
theorem load_error_recovery :
    load_high_scores .absent = .ok ([], false) ∧
    load_high_scores .invalidJson = .ok ([], true) ∧
    (∀ fs l w, load_high_scores fs = .ok (l, w) → w = true →
      fs = .invalidJson ∧ l = []) ∧
    (∃ v e, load_high_scores (.json v) = .error e) := by
  refine ⟨rfl, rfl, ?_, ⟨.jArr [.jInt 1], .typeError, rfl⟩⟩
  intro fs l w hl hw
  subst hw
  cases fs with
  | absent => simp [load_high_scores] at hl
  | invalidJson =>
      simp only [load_high_scores, Except.ok.injEq, Prod.mk.injEq] at hl
      exact ⟨rfl, hl.1.symm⟩
  | json v =>
      simp only [load_high_scores] at hl
      cases hi : pyIter v with
      | error e => rw [hi] at hl; cases hl
      | ok xs =>
          rw [hi] at hl
          simp only [] at hl
          cases hs : pySortByAttempts xs with
          | error e => rw [hs] at hl; cases hl
          | ok l' => rw [hs] at hl; simp at hl

theorem load_error_recovery_witness :
    FileState.invalidJson = FileState.invalidJson ∧ ([] : List JValue) = [] :=
  load_error_recovery.2.2.1 .invalidJson [] true rfl rfl

/-- C7.  When the write fails, `save_high_score` catches the `IOError`
(it returns normally rather than raising), reports it, leaves the
backing file in its previous state, and the in-memory sorted scores
list it built still contains the new record. -/
theorem save_write_failure_caught (r : ScoreRecord) (fs : FileState)
    (h : intLoadable fs = true) :
    ∃ mem, save_high_score r.toJson fs false = .ok (fs, mem, true) ∧ r.toJson ∈ mem := by
  obtain ⟨fs2, mem, rep, hsave, _, hr, _, hfalse, _⟩ := save_of_intLoadable h r false
  obtain ⟨h1, h2⟩ := hfalse rfl
  subst h1
  subst h2
  exact ⟨mem, hsave, hr⟩

theorem save_write_failure_caught_witness :
    ∃ mem, save_high_score (ScoreRecord.toJson ⟨"p", "easy", 7, "2026-04-04"⟩)
        (.json (.jArr [])) false = .ok (.json (.jArr []), mem, true) ∧
      ScoreRecord.toJson ⟨"p", "easy", 7, "2026-04-04"⟩ ∈ mem :=
  save_write_failure_caught ⟨"p", "easy", 7, "2026-04-04"⟩ (.json (.jArr [])) rfl

/-- C10.  With the backing file holding undecodable content, the next
successful `save_high_score` loads an empty list (with the warning),
and overwrites the file with an array holding only the new record: the
previous content is discarded with no backup. -/
theorem save_after_corruption_overwrites (r : ScoreRecord) :
    save_high_score r.toJson .invalidJson true =
      .ok (.json (.jArr [r.toJson]), [r.toJson], false) ∧
    load_high_scores .invalidJson = .ok ([], true) :=
  ⟨rfl, rfl⟩

/-! ### Helper lemmas: the session engine -/

theorem hint_condition_iff (n : Nat) :
    hint_condition n false = true ↔ 3 ≤ n ∧ n % 2 = 1 := by
  rw [hint_condition]
  simp only [Bool.not_false, Bool.and_true, Bool.and_eq_true, Bool.or_eq_true,
    decide_eq_true_eq, ge_iff_le, gt_iff_lt]
  omega

theorem play_game_loop_props (secret : Int) (max_attempts : Nat) (guesses : Nat → Int) :
    ∀ attempts_made : Nat,
      ((play_game_loop secret max_attempts guesses attempts_made).attempts_made =
        attempts_made + (play_game_loop secret max_attempts guesses attempts_made).iterations) ∧
      (attempts_made ≤ max_attempts →
        (play_game_loop secret max_attempts guesses attempts_made).attempts_made ≤
          max_attempts) ∧
      ((play_game_loop secret max_attempts guesses attempts_made).game_won = true →
        attempts_made < (play_game_loop secret max_attempts guesses attempts_made).attempts_made) ∧
      (∀ n, n ∈ (play_game_loop secret max_attempts guesses attempts_made).hintsAt ↔
        (attempts_made < n ∧
          n ≤ (play_game_loop secret max_attempts guesses attempts_made).attempts_made ∧
          3 ≤ n ∧ n % 2 = 1 ∧
          ¬((play_game_loop secret max_attempts guesses attempts_made).game_won = true ∧
            n = (play_game_loop secret max_attempts guesses attempts_made).attempts_made))) := by
  suffices hsuf : ∀ fuel a, max_attempts - a = fuel →
      ((play_game_loop secret max_attempts guesses a).attempts_made =
        a + (play_game_loop secret max_attempts guesses a).iterations) ∧
      (a ≤ max_attempts →
        (play_game_loop secret max_attempts guesses a).attempts_made ≤ max_attempts) ∧
      ((play_game_loop secret max_attempts guesses a).game_won = true →
        a < (play_game_loop secret max_attempts guesses a).attempts_made) ∧
      (∀ n, n ∈ (play_game_loop secret max_attempts guesses a).hintsAt ↔
        (a < n ∧ n ≤ (play_game_loop secret max_attempts guesses a).attempts_made ∧
          3 ≤ n ∧ n % 2 = 1 ∧
          ¬((play_game_loop secret max_attempts guesses a).game_won = true ∧
            n = (play_game_loop secret max_attempts guesses a).attempts_made))) by
    intro a
    exact hsuf (max_attempts - a) a rfl
  intro fuel
  induction fuel with
  | zero =>
      intro a hfuel
      have ha : ¬ a < max_attempts := by omega
      rw [play_game_loop, dif_neg ha]
      refine ⟨rfl, fun h => h, by simp, ?_⟩
      intro n
      simp only [List.not_mem_nil, false_iff]
      rintro ⟨h1, h2, -⟩
      omega
  | succ k ih =>
      intro a hfuel
      have ha : a < max_attempts := by omega
      rw [play_game_loop, dif_pos ha]
      by_cases hg : guesses a = secret
      · rw [if_pos hg]
        dsimp only
        refine ⟨rfl, fun h => by omega, fun h => by omega, ?_⟩
        intro n
        simp only [List.not_mem_nil, false_iff]
        rintro ⟨h1, h2, -, -, h5⟩
        exact h5 ⟨by trivial, by omega⟩
      · rw [if_neg hg]
        dsimp only
        obtain ⟨ih1, ih2, ih3, ih4⟩ := ih (a + 1) (by omega)
        refine ⟨by omega, ?_, ?_, ?_⟩
        · intro h
          exact ih2 (by omega)
        · intro hwon
          have := ih3 hwon
          omega
        · intro n
          have ha1 : a + 1 ≤ (play_game_loop secret max_attempts guesses (a + 1)).attempts_made := by
            omega

          simp only [List.mem_append]
          by_cases hc : hint_condition (a + 1) false = true
          · rw [if_pos hc]
            obtain ⟨hc3, hc2⟩ := (hint_condition_iff (a + 1)).mp hc
            constructor
            · rintro (h1 | h2)
              · have hn : n = a + 1 := by simpa using h1
                subst hn
                refine ⟨by omega, ha1, hc3, hc2, ?_⟩
                rintro ⟨hwon, heq⟩
                have := ih3 hwon
                omega
              · obtain ⟨g1, g2, g3, g4, g5⟩ := (ih4 n).mp h2
                exact ⟨by omega, g2, g3, g4, g5⟩
            · rintro ⟨g1, g2, g3, g4, g5⟩
              by_cases hn : n = a + 1
              · left; simpa using hn
              · right
                exact (ih4 n).mpr ⟨by omega, g2, g3, g4, g5⟩
          · rw [if_neg hc]
            simp only [List.not_mem_nil, false_or]
            rw [ih4 n]
            constructor
            · rintro ⟨g1, g2, g3, g4, g5⟩
              exact ⟨by omega, g2, g3, g4, g5⟩
            · rintro ⟨g1, g2, g3, g4, g5⟩
              refine ⟨?_, g2, g3, g4, g5⟩
              rcases Nat.lt_or_ge (a + 1) n with h | h
              · exact h
              · exfalso
                have hn : n = a + 1 := by omega
                subst hn
                exact hc ((hint_condition_iff (a + 1)).mpr ⟨g3, g4⟩)

/-! ### Claim theorems: the session engine -/

/-- C4.  In a session started at zero attempts, a hint is printed at
attempt count `n` exactly when `n` is odd and at least 3 (that is,
`n ∈ {3, 5, 7, 9, ...}`), attempt `n` actually happened, and attempt `n`
was not the winning guess (a correct guess breaks out of the loop before
the hint check); in particular no hint is printed at even attempt counts
or at attempts 1 and 2. -/
theorem hint_cadence (secret : Int) (max_attempts : Nat) (guesses : Nat → Int) (n : Nat) :
    n ∈ (play_game_loop secret max_attempts guesses 0).hintsAt ↔
      (3 ≤ n ∧ n % 2 = 1 ∧
        n ≤ (play_game_loop secret max_attempts guesses 0).attempts_made ∧
        ¬((play_game_loop secret max_attempts guesses 0).game_won = true ∧
          n = (play_game_loop secret max_attempts guesses 0).attempts_made)) := by
  rw [(play_game_loop_props secret max_attempts guesses 0).2.2.2 n]
  constructor
  · rintro ⟨h1, h2, h3, h4, h5⟩
    exact ⟨h3, h4, h2, h5⟩
  · rintro ⟨h3, h4, h2, h5⟩
    exact ⟨by omega, h2, h3, h4, h5⟩

/-- C6.  For a positive attempt bound, the guess loop runs at most
`max_attempts` iterations whatever the guess stream supplies, and the
attempts-made counter stays at or below `max_attempts`, both for the
session started at zero and from any intermediate counter value. -/
theorem session_loop_bounded (secret : Int) (max_attempts : Nat) (guesses : Nat → Int)
    (_h : 0 < max_attempts) :
    (play_game_loop secret max_attempts guesses 0).iterations ≤ max_attempts ∧
    (play_game_loop secret max_attempts guesses 0).attempts_made ≤ max_attempts ∧
    (∀ a, a ≤ max_attempts →
      (play_game_loop secret max_attempts guesses a).attempts_made ≤ max_attempts) := by
  obtain ⟨h1, h2, -, -⟩ := play_game_loop_props secret max_attempts guesses 0
  have hb := h2 (Nat.zero_le _)
  exact ⟨by omega, hb,
    fun a ha => (play_game_loop_props secret max_attempts guesses a).2.1 ha⟩

theorem session_loop_bounded_witness :
    (play_game_loop 50 10 (fun _ => 1) 0).iterations ≤ 10 ∧
    (play_game_loop 50 10 (fun _ => 1) 0).attempts_made ≤ 10 ∧
    (∀ a, a ≤ 10 → (play_game_loop 50 10 (fun _ => 1) a).attempts_made ≤ 10) :=
  session_loop_bounded 50 10 (fun _ => 1) (by decide)

/-- C8.  `get_user_guess` returns only an integer inside
`[1, max_range]`, found after a (possibly empty) prefix of rejected
lines (non-integer text or out-of-range integers); if every input line
is rejected it never returns; and the attempts counter of the guess
loop grows by exactly one per loop iteration, i.e. per accepted guess —
rejected lines are consumed inside `get_user_guess` and never touch
it. -/
theorem guess_validation :
    (∀ (max_range : Int) (lines : List InputLine) (n : Int) (rest : List InputLine),
      get_user_guess max_range lines = some (n, rest) →
        (1 ≤ n ∧ n ≤ max_range) ∧
        ∃ pre, lines = pre ++ InputLine.intVal n :: rest ∧
          ∀ l ∈ pre, line_rejected max_range l = true) ∧
    (∀ (max_range : Int) (lines : List InputLine),
      (∀ l ∈ lines, line_rejected max_range l = true) →
      get_user_guess max_range lines = none) ∧
    (∀ (secret : Int) (max_attempts : Nat) (guesses : Nat → Int) (a : Nat),
      (play_game_loop secret max_attempts guesses a).attempts_made =
        a + (play_game_loop secret max_attempts guesses a).iterations) := by
  refine ⟨?_, ?_, fun s m g a => (play_game_loop_props s m g a).1⟩
  · intro mr lines
    induction lines with
    | nil => intro n rest h; cases h
    | cons l ls ih =>
        intro n rest h
        cases l with
        | notInt =>
            rw [get_user_guess] at h
            obtain ⟨hb, pre, hpre, hall⟩ := ih n rest h
            refine ⟨hb, .notInt :: pre, by simp [hpre], ?_⟩
            intro l hl
            rcases List.mem_cons.mp hl with h1 | h2
            · subst h1; rfl
            · exact hall l h2
        | intVal m =>
            rw [get_user_guess] at h
            by_cases hm : 1 ≤ m ∧ m ≤ mr
            · rw [if_pos hm] at h
              simp only [Option.some.injEq, Prod.mk.injEq] at h
              obtain ⟨h1, h2⟩ := h
              subst h1
              subst h2
              exact ⟨hm, [], by simp, by simp⟩
            · rw [if_neg hm] at h
              obtain ⟨hb, pre, hpre, hall⟩ := ih n rest h
              refine ⟨hb, .intVal m :: pre, by simp [hpre], ?_⟩
              intro l hl
              rcases List.mem_cons.mp hl with h1 | h2
              · subst h1
                simp only [line_rejected, Bool.or_eq_true, decide_eq_true_eq]
                omega
              · exact hall l h2
  · intro mr lines
    induction lines with
    | nil => intro _; rfl
    | cons l ls ih =>
        intro h
        cases l with
        | notInt =>
            rw [get_user_guess]
            exact ih fun x hx => h x (List.mem_cons_of_mem _ hx)
        | intVal m =>
            rw [get_user_guess]
            have hrej := h (.intVal m) (List.mem_cons_self _ _)
            simp only [line_rejected, Bool.or_eq_true, decide_eq_true_eq] at hrej
            rw [if_neg (by omega)]
            exact ih fun x hx => h x (List.mem_cons_of_mem _ hx)

theorem guess_validation_witness :
    ((1 : Int) ≤ 5 ∧ (5 : Int) ≤ 100) ∧
    ∃ pre, [InputLine.notInt, InputLine.intVal 200, InputLine.intVal 5] =
        pre ++ InputLine.intVal 5 :: ([] : List InputLine) ∧
      ∀ l ∈ pre, line_rejected 100 l = true :=
  guess_validation.1 100 [.notInt, .intVal 200, .intVal 5] 5 [] (by decide)

theorem randint_bounds (a b : Int) (e : Nat) (h : a ≤ b) :
    a ≤ randint a b e ∧ randint a b e ≤ b := by
  have h1 : ((b - a + 1).toNat : Int) = b - a + 1 := Int.toNat_of_nonneg (by omega)
  have hm : 0 < (b - a + 1).toNat := by omega
  have h2 : e % (b - a + 1).toNat < (b - a + 1).toNat := Nat.mod_lt _ hm
  unfold randint
  generalize hgen : e % (b - a + 1).toNat = x at h2 ⊢
  generalize (b - a + 1).toNat = t at h1 h2
  omega

/-- C9.  For each of the three difficulty names, `generate_secret_number`
looks up the difficulty settings and — for every outcome of the random
draw — produces an integer between 1 and that difficulty's configured
range, inclusive. -/
theorem generate_secret_number_in_range (d : String)
    (h : d = "easy" ∨ d = "medium" ∨ d = "hard") (entropy : Nat) :
    ∃ s n, DIFFICULTIES.lookup d = some s ∧
      generate_secret_number d entropy = some n ∧ 1 ≤ n ∧ n ≤ (s.range : Int) := by
  obtain ⟨h1, h2⟩ := randint_bounds 1 100 entropy (by norm_num)
  rcases h with h | h | h <;> subst h
  · exact ⟨⟨10, 100⟩, randint 1 100 entropy, rfl, rfl, h1, h2⟩
  · exact ⟨⟨7, 100⟩, randint 1 100 entropy, rfl, rfl, h1, h2⟩
  · exact ⟨⟨5, 100⟩, randint 1 100 entropy, rfl, rfl, h1, h2⟩

theorem generate_secret_number_in_range_witness :
    ∃ s n, DIFFICULTIES.lookup "easy" = some s ∧
      generate_secret_number "easy" 0 = some n ∧ 1 ≤ n ∧ n ≤ (s.range : Int) :=
  generate_secret_number_in_range "easy" (Or.inl rfl) 0

/-! ### Helper lemmas and claim theorem: hint generation -/

theorem hint_mem_parityEven (s : Int) (lg : Option Int) :
    HintToken.parityEven ∈ generate_hint_candidates s lg ↔ s % 2 = 0 := by
  rcases lg with _ | g <;>
    simp only [generate_hint_candidates, List.mem_append] <;>
    split_ifs <;> simp_all

theorem hint_mem_parityOdd (s : Int) (lg : Option Int) :
    HintToken.parityOdd ∈ generate_hint_candidates s lg ↔ ¬s % 2 = 0 := by
  rcases lg with _ | g <;>
    simp only [generate_hint_candidates, List.mem_append] <;>
    split_ifs <;> simp_all

theorem hint_mem_div3 (s : Int) (lg : Option Int) :
    HintToken.div3 ∈ generate_hint_candidates s lg ↔ 10 < s ∧ s % 3 = 0 := by
  rcases lg with _ | g <;>
    simp only [generate_hint_candidates, List.mem_append] <;>
    split_ifs <;> simp_all

theorem hint_mem_div5 (s : Int) (lg : Option Int) :
    HintToken.div5 ∈ generate_hint_candidates s lg ↔
      10 < s ∧ ¬s % 3 = 0 ∧ s % 5 = 0 := by
  rcases lg with _ | g <;>
    simp only [generate_hint_candidates, List.mem_append] <;>
    split_ifs <;> simp_all

theorem hint_mem_div7 (s : Int) (lg : Option Int) :
    HintToken.div7 ∈ generate_hint_candidates s lg ↔
      10 < s ∧ ¬s % 3 = 0 ∧ ¬s % 5 = 0 ∧ s % 7 = 0 := by
  rcases lg with _ | g <;>
    simp only [generate_hint_candidates, List.mem_append] <;>
    split_ifs <;> simp_all

theorem hint_mem_greaterThan (s : Int) (lg : Option Int) (g : Int) :
    HintToken.greaterThan g ∈ generate_hint_candidates s lg ↔
      lg = some g ∧ g < s := by
  rcases lg with _ | g' <;>
    simp only [generate_hint_candidates, List.mem_append] <;>
    split_ifs <;> simp_all <;> omega

theorem hint_mem_lessThan (s : Int) (lg : Option Int) (g : Int) :
    HintToken.lessThan g ∈ generate_hint_candidates s lg ↔
      lg = some g ∧ s < g := by
  rcases lg with _ | g' <;>
    simp only [generate_hint_candidates, List.mem_append] <;>
    split_ifs <;> simp_all <;> omega

theorem hint_parity_count (s : Int) (lg : Option Int) :
    (generate_hint_candidates s lg).count HintToken.parityEven +
      (generate_hint_candidates s lg).count HintToken.parityOdd = 1 := by
  rcases lg with _ | g <;>
    simp only [generate_hint_candidates] <;>
    split_ifs <;>
    simp [List.count_append, List.count_cons, List.count_nil]

/-- C5.  The candidate list of `generate_hint` holds exactly one parity
hint, matching the parity of the secret; a divisibility hint only for
secrets above 10 and then only the first divisor among 3, 5, 7 that
divides the secret; and a proximity hint exactly when a last guess is
given and differs from the secret — greater-than when it is below,
less-than when it is above; for secret 12 and last guess 5 the
candidates include the even hint and the greater-than-5 hint. -/
theorem generate_hint_spec (s : Int) (lg : Option Int) :
    ((generate_hint_candidates s lg).count HintToken.parityEven +
      (generate_hint_candidates s lg).count HintToken.parityOdd = 1) ∧
    (HintToken.parityEven ∈ generate_hint_candidates s lg ↔ s % 2 = 0) ∧
    (HintToken.parityOdd ∈ generate_hint_candidates s lg ↔ ¬s % 2 = 0) ∧
    (HintToken.div3 ∈ generate_hint_candidates s lg ↔ 10 < s ∧ s % 3 = 0) ∧
    (HintToken.div5 ∈ generate_hint_candidates s lg ↔
      10 < s ∧ ¬s % 3 = 0 ∧ s % 5 = 0) ∧
    (HintToken.div7 ∈ generate_hint_candidates s lg ↔
      10 < s ∧ ¬s % 3 = 0 ∧ ¬s % 5 = 0 ∧ s % 7 = 0) ∧
    (∀ g, HintToken.greaterThan g ∈ generate_hint_candidates s lg ↔
      lg = some g ∧ g < s) ∧
    (∀ g, HintToken.lessThan g ∈ generate_hint_candidates s lg ↔
      lg = some g ∧ s < g) ∧
    (HintToken.parityEven ∈ generate_hint_candidates 12 (some 5) ∧
      HintToken.greaterThan 5 ∈ generate_hint_candidates 12 (some 5)) :=
  ⟨hint_parity_count s lg, hint_mem_parityEven s lg, hint_mem_parityOdd s lg,
    hint_mem_div3 s lg, hint_mem_div5 s lg, hint_mem_div7 s lg,
    fun g => hint_mem_greaterThan s lg g, fun g => hint_mem_lessThan s lg g,
    by decide⟩

end Guessing
